import Mathlib

/-!
# Verification of the ingredient-phrase-tagger row translator

Shallow embedding of `ingredient_phrase_tagger/training/translator.py`
(the single source file of the repository) together with models of the
`utils` collaborators that the source imports but that are not part of
the provided sources.  Every `Decimal` value handled by the source is a
quantity rounded to 2 decimal places, so Python `Decimal` values are
embedded as exact integer counts of hundredths (`ℤ`); the decimal
rounding performed by Python 2's `round` (correctly rounded, ties away
from zero) is embedded as `roundNearestAway`.  Python exceptions
(`KeyError`, `ZeroDivisionError`,
`TypeError`) are embedded in an `Except` result, and the mutation that
`translate_row` performs on its argument dictionary is embedded by
returning the post-call record alongside the result.
-/

set_option autoImplicit false

deriving instance DecidableEq for Except

namespace IngredientTagger

/-- The characters matched by Python 2's regex class `\s` (ASCII mode). -/
def pyIsSpace (c : Char) : Bool :=
  c = ' ' || c = '\t' || c = '\n' || c = '\r' || c = '\x0b' || c = '\x0c'

/-- Numeric value of an ASCII digit character. -/
def digitVal (c : Char) : ℕ := c.toNat - 48

/-- The natural number denoted by a list of ASCII digit characters. -/
def natOfDigits (ds : List Char) : ℕ :=
  ds.foldl (fun a c => 10 * a + digitVal c) 0

/-- The ASCII digit character for `k % 10`. -/
def digitChar (k : ℕ) : Char :=
  match k % 10 with
  | 0 => '0' | 1 => '1' | 2 => '2' | 3 => '3' | 4 => '4'
  | 5 => '5' | 6 => '6' | 7 => '7' | 8 => '8' | _ => '9'

/-- Decimal digits of a natural number (with fuel for structural recursion). -/
def natDigitsAux : ℕ → ℕ → List Char
  | 0, _ => []
  | fuel + 1, n => if n < 10 then [digitChar n] else natDigitsAux fuel (n / 10) ++ [digitChar (n % 10)]

/-- Decimal representation of a natural number. -/
def natRepr (n : ℕ) : String := String.mk (natDigitsAux (n + 1) n)

/-- Python 2 `round` for a nonnegative fraction `p / q` (with `q > 0`):
correctly rounded to the nearest integer, ties away from zero. -/
def roundNearestAway (p q : ℕ) : ℕ :=
  if 2 * (p % q) < q then p / q else p / q + 1

/-- Python exceptions that the translated code can raise. -/
inductive PyErr where
  | keyError (k : String)
  | zeroDivisionError
  | typeError
  deriving DecidableEq

/-!
## Models of the external `utils` collaborators

The file `ingredient_phrase_tagger/training/utils.py` is imported by the
source but is not among the provided sources, so the collaborators are
modelled from the spec's interface contracts (§6).
-/

/-- Modelled from the spec: `utils.unclump` "pre-processes a token before
numeric parsing (e.g., de-ligating joined characters)".  The spec names no
observable transformation on tokens that contain no ligature artefacts, so
it is modelled as the identity. -/
def unclump (s : String) : String := s

/-- ASCII replacement for a Unicode vulgar-fraction glyph, if any. -/
def vulgarFraction (c : Char) : Option String :=
  if c = '½' then some "1/2"
  else if c = '⅓' then some "1/3"
  else if c = '⅔' then some "2/3"
  else if c = '¼' then some "1/4"
  else if c = '¾' then some "3/4"
  else if c = '⅛' then some "1/8"
  else none

/-- Modelled from the spec: `utils.cleanUnicodeFractions` "replaces Unicode
vulgar-fraction glyphs with ASCII equivalents before tokenization". -/
def cleanUnicodeFractions (s : String) : String :=
  String.mk (s.data.foldr (fun c acc =>
    (match vulgarFraction c with
     | some r => r.data
     | none => [c]) ++ acc) [])

/-- Splitter underlying `tokenize`: maximal runs of non-whitespace characters. -/
def wsSplitGo : List Char → List Char → List (List Char)
  | cur, [] => if cur.isEmpty then [] else [cur.reverse]
  | cur, c :: cs =>
    if pyIsSpace c then
      if cur.isEmpty then wsSplitGo [] cs else cur.reverse :: wsSplitGo [] cs
    else
      wsSplitGo (c :: cur) cs

/-- Modelled from the spec: `utils.tokenize` "splits text into display
tokens, preserving order, collapsing/handling whitespace and punctuation per
its own rules"; modelled as splitting into maximal whitespace-separated runs. -/
def tokenize (s : String) : List String :=
  (wsSplitGo [] s.data).map String.mk

/-- Modelled from the spec: `utils.normalizeToken` "strips decorative
characters (e.g., surrounding parentheses) for matching purposes only";
modelled as stripping leading left and trailing right parentheses. -/
def normalizeToken (s : String) : String :=
  String.mk (((s.data.dropWhile (fun c => c = '(')).reverse.dropWhile (fun c => c = ')')).reverse)

/-- Modelled from the spec: the "total token count category" feature seen in
the source docstring (`L4` for a three-token phrase): the token count rounded
up to the next of 4, 8, 12, 16, 20, or `X` beyond. -/
def lengthGroup (n : ℕ) : String :=
  if n < 4 then "4"
  else if n < 8 then "8"
  else if n < 12 then "12"
  else if n < 16 then "16"
  else if n < 20 then "20"
  else "X"

/-- Modelled from the spec: the capitalization flag feature. -/
def capFlag (token : String) : String :=
  match token.data with
  | c :: _ => if c.isUpper then "YesCAP" else "NoCAP"
  | [] => "NoCAP"

/-- Modelled from the spec: the parenthesis-context flag feature. -/
def parenFlag (token : String) : String :=
  if token.data.contains '(' || token.data.contains ')' then "YesPAREN" else "NoPAREN"

/-- Modelled from the spec: `utils.getFeatures(token, position, allTokens)`
returns the order-significant feature columns: 1-based position, token-count
category, capitalization flag, parenthesis-context flag (§4.5, and the
docstring of `translate_row` in the source). -/
def getFeatures (token : String) (index : ℕ) (tokens : List String) : List String :=
  ["I" ++ natRepr index, "L" ++ lengthGroup tokens.length, capFlag token, parenFlag token]

/-- Character-list intercalation with a single separator character. -/
def interChar (c : Char) : List (List Char) → List Char
  | [] => []
  | [l] => l
  | l :: ls => l ++ c :: interChar c ls

/-- Modelled from the spec: `utils.joinLine` joins the fields of one training
line with the fixed tab delimiter. -/
def joinLine (xs : List String) : String :=
  String.mk (interChar '\t' (xs.map String.data))

/-- Python's `str.upper()` for the ASCII field names, character by
character. -/
def strUpper (s : String) : String := String.mk (s.data.map Char.toUpper)

/-!
## `_parseNumbers` (source lines 35–57)

`re.match('^\d+$', ss)`, `re.match(r'(\d+)\s+(\d)/(\d)', ss)` and
`re.match(r'^(\d)/(\d)$', ss)` are embedded by direct string decomposition.
A `$` anchor in Python also matches just before one newline at the end of
the string, hence `stripNL`.  A zero denominator makes the Python code
raise `ZeroDivisionError` at `float(...)/float(...)`.
-/

/-- Remove a single trailing newline, as tolerated by Python's `$` anchor. -/
def stripNL (cs : List Char) : List Char :=
  if cs.getLast? = some '\n' then cs.dropLast else cs

/-- Embedding of `re.match('^\d+$', ss) is not None`. -/
def matchIntTok (cs : List Char) : Bool :=
  let cs' := stripNL cs
  !cs'.isEmpty && cs'.all Char.isDigit

/-- Embedding of `re.match(r'(\d+)\s+(\d)/(\d)', ss)`: anchored at the start
only; returns the integer part and the two single-digit groups. -/
def matchMixed (cs : List Char) : Option (ℕ × ℕ × ℕ) :=
  let ds := cs.takeWhile Char.isDigit
  let r1 := cs.dropWhile Char.isDigit
  let ws := r1.takeWhile pyIsSpace
  let r2 := r1.dropWhile pyIsSpace
  if ds.isEmpty || ws.isEmpty then none
  else
    match r2 with
    | n :: sl :: d :: _ =>
      if sl = '/' && n.isDigit && d.isDigit then some (natOfDigits ds, digitVal n, digitVal d)
      else none
    | _ => none

/-- Embedding of `re.match(r'^(\d)/(\d)$', ss)`. -/
def matchFrac (cs : List Char) : Option (ℕ × ℕ) :=
  match stripNL cs with
  | [n, sl, d] =>
    if sl = '/' && n.isDigit && d.isDigit then some (digitVal n, digitVal d) else none
  | _ => none

/-- Embedding of `_parseNumbers`: integer, mixed number, or simple fraction,
tried in the source's order; `.ok none` is Python's `return None` ("no
match"); `.error` is a raised exception.  The returned `Decimal` (a value
rounded to 2 decimal places) is represented by its value in hundredths:
`150` stands for `Decimal("1.50")`.  A mixed number `ip n/d` has the value
`(ip * d + n) / d`, so its hundredths value is `(ip * d + n) * 100 / d`,
rounded as Python 2's `round` rounds. -/
def _parseNumbers (s : String) : Except PyErr (Option ℤ) :=
  let ss := unclump s
  let cs := ss.data
  if matchIntTok cs then
    .ok (some ((100 * natOfDigits (stripNL cs) : ℕ) : ℤ))
  else
    match matchMixed cs with
    | some (ip, n, d) =>
      if d = 0 then .error .zeroDivisionError
      else .ok (some ((roundNearestAway ((ip * d + n) * 100) d : ℕ) : ℤ))
    | none =>
      match matchFrac cs with
      | some (n, d) =>
        if d = 0 then .error .zeroDivisionError
        else .ok (some ((roundNearestAway (n * 100) d : ℕ) : ℤ))
      | none => .ok none

/-!
## The data model: `IngredientRecord` (spec §3) as a Python dict

The record is a mapping from the fixed key set
`{index, name, qty, range_end, unit, comment, input}` to values; a key may
be absent (looking it up raises `KeyError`).  Values are free text or
decimal numbers.
-/

/-- A field value of an ingredient record: free text, or a decimal number
represented by its value in hundredths (`dec 200` is `Decimal("2.00")`). -/
inductive FieldValue where
  | str (s : String)
  | dec (q : ℤ)
  deriving DecidableEq

/-- An ingredient record: each of the seven keys is present or absent. -/
structure Row where
  index : Option FieldValue
  name : Option FieldValue
  qty : Option FieldValue
  range_end : Option FieldValue
  unit : Option FieldValue
  comment : Option FieldValue
  input : Option FieldValue
  deriving DecidableEq

/-- Dictionary lookup `row[key]`: `none` models a raised `KeyError`. -/
def Row.get (row : Row) (k : String) : Option FieldValue :=
  if k = "index" then row.index
  else if k = "name" then row.name
  else if k = "qty" then row.qty
  else if k = "range_end" then row.range_end
  else if k = "unit" then row.unit
  else if k = "comment" then row.comment
  else if k = "input" then row.input
  else none

/-- `del row['input']`. -/
def Row.delInput (row : Row) : Row := { row with input := none }

/-- The fixed field priority order iterated by `_matchUp` (source line 84). -/
def fieldOrder : List String := ["index", "name", "qty", "range_end", "unit", "comment"]

/-!
## `_matchUp` (source lines 60–96)
-/

/-- The labels one field contributes to `_matchUp`'s result: one copy of the
uppercased key per sub-token of a textual value whose normalization equals
the (already normalized) token, and one copy for a numeric value equal to
the parsed decimal token. -/
def fieldContrib (tok : String) (dt : Option ℤ) (key : String) (val : FieldValue) : List String :=
  match val with
  | .str v => ((tokenize v).filter (fun vt => normalizeToken vt = tok)).map (fun _ => strUpper key)
  | .dec q =>
    match dt with
    | some d => if q = d then [strUpper key] else []
    | none => []

/-- The `for key in [...]` loop of `_matchUp`: looks every key up in order
(raising `KeyError` at the first absent one) and concatenates the
contributions. -/
def matchLoop (tok : String) (dt : Option ℤ) (row : Row) : List String → Except PyErr (List String)
  | [] => .ok []
  | k :: ks =>
    match row.get k with
    | none => .error (.keyError k)
    | some v => (matchLoop tok dt row ks).map (fun rest => fieldContrib tok dt k v ++ rest)

/-- Embedding of `_matchUp`: normalize the token, parse it as a decimal
once, then scan the six structured fields in priority order. -/
def _matchUp (token : String) (row : Row) : Except PyErr (List String) :=
  let tok := normalizeToken token
  match _parseNumbers tok with
  | .error e => .error e
  | .ok dt => matchLoop tok dt row fieldOrder

/-!
## `_addPrefixes` (source lines 99–121) and `_bestTag` (source lines 124–136)
-/

/-- The loop of `_addPrefixes`, carrying the previous token's raw tag list
(`None` before the first token). -/
def addPrefixesGo : Option (List String) → List (String × List String) → List (String × List String)
  | _, [] => []
  | prev, (token, tags) :: rest =>
    (token, tags.map (fun t =>
      (match prev with
       | none => "B"
       | some p => if t ∈ p then "I" else "B") ++ "-" ++ t)) :: addPrefixesGo (some tags) rest

/-- Embedding of `_addPrefixes`. -/
def _addPrefixes (data : List (String × List String)) : List (String × List String) :=
  addPrefixesGo none data

/-- The `for t in tags` loop of `_bestTag` together with the final
`return "OTHER"`. -/
def bestTagLoop : List String → String
  | [] => "OTHER"
  | t :: ts => if t ≠ "B-COMMENT" ∧ t ≠ "I-COMMENT" then t else bestTagLoop ts

/-- Embedding of `_bestTag`. -/
def _bestTag (tags : List String) : String :=
  if tags.length = 1 then tags.headD "" else bestTagLoop tags

/-!
## `translate_row` (source lines 7–32)
-/

/-- The list comprehension `[(t, _matchUp(t, row)) for t in tokens]`,
stopping at the first raised exception. -/
def rowDataE (tokens : List String) (row : Row) : Except PyErr (List (String × List String)) :=
  match tokens with
  | [] => .ok []
  | t :: ts =>
    match _matchUp t row with
    | .error e => .error e
    | .ok tags => (rowDataE ts row).map (fun rest => (t, tags) :: rest)

/-- The output-building loop of `translate_row`: one line per element of the
prefixed row data, `joinLine([token] + features + [_bestTag(tags)])` plus a
newline; `i` is the 0-based loop counter of `enumerate`. -/
def renderAll (i : ℕ) (pd : List (String × List String)) (tokens : List String) : String :=
  match pd with
  | [] => ""
  | (token, tags) :: rest =>
    joinLine (token :: (getFeatures token (i + 1) tokens ++ [_bestTag tags])) ++ "\n"
      ++ renderAll (i + 1) rest tokens

/-- Embedding of `translate_row`.  The first component is the translated
string or the raised exception; the second component is the state of the
record after the call (the source deletes `row['input']` once the display
string has been read, before matching). -/
def translate_row (row : Row) : Except PyErr String × Row :=
  match row.get "input" with
  | none => (.error (.keyError "input"), row)
  | some (.dec _) => (.error .typeError, row)
  | some (.str s) =>
    let displayInput := cleanUnicodeFractions s
    let tokens := tokenize displayInput
    let row' := row.delInput
    match rowDataE tokens row' with
    | .error e => (.error e, row')
    | .ok rd => (.ok (renderAll 0 (_addPrefixes rd) tokens), row')

/-!
## Spec-side definitions and generic helpers used by the claim statements
-/

/-- The Best-Tag Resolver rule as the spec states it: the sole label when
there is exactly one, otherwise the first label that is not a comment
label, and `"OTHER"` when the list is empty or all labels are comment
labels. -/
def bestTagClaim (tags : List String) : String :=
  match tags with
  | [t] => t
  | _ => (tags.find? (fun t => !(t = "B-COMMENT" || t = "I-COMMENT"))).getD "OTHER"

/-- The BIO-prefix rule as the spec states it: `B` when there is no
preceding token, otherwise `I` exactly when the field also appears in the
preceding token's raw match set. -/
def bioPref (prev : Option (List String)) (t : String) : String :=
  match prev with
  | none => "B-" ++ t
  | some p => if t ∈ p then "I-" ++ t else "B-" ++ t

/-- Whether an `Except` result is a success. -/
def isOkE {ε α : Type} : Except ε α → Bool
  | .ok _ => true
  | .error _ => false

/-- The first field of the priority order that is absent from the record. -/
def firstMissingKey (row : Row) : Option String :=
  fieldOrder.find? (fun k => (row.get k).isNone)

/-- Split a character list at every occurrence of a separator character. -/
def splitOnCharL (c : Char) : List Char → List (List Char)
  | [] => [[]]
  | a :: as =>
    match splitOnCharL c as with
    | [] => [[a]]
    | l :: ls => if a = c then [] :: l :: ls else (a :: l) :: ls

/-- Split a string into its newline-separated pieces. -/
def splitLinesS (s : String) : List String :=
  (splitOnCharL '\n' s.data).map String.mk

/-- Split a string into its tab-separated fields. -/
def splitTabsS (s : String) : List String :=
  (splitOnCharL '\t' s.data).map String.mk

/-!
## Helper lemmas
-/

theorem bestTagLoop_eq_find (tags : List String) :
    bestTagLoop tags = (tags.find? (fun t => !(t = "B-COMMENT" || t = "I-COMMENT"))).getD "OTHER" := by
  induction tags with
  | nil => rfl
  | cons t ts ih =>
    by_cases h : t = "B-COMMENT" ∨ t = "I-COMMENT"
    · have hb : (!(t = "B-COMMENT" || t = "I-COMMENT")) = false := by
        rcases h with h | h <;> simp [h]
      simp only [bestTagLoop, List.find?]
      rw [hb]
      have hne : ¬(t ≠ "B-COMMENT" ∧ t ≠ "I-COMMENT") := by tauto
      rw [if_neg hne]
      exact ih
    · push_neg at h
      have hb : (!(t = "B-COMMENT" || t = "I-COMMENT")) = true := by
        simp [h.1, h.2]
      simp only [bestTagLoop, List.find?]
      rw [hb, if_pos h]
      rfl

/-- C1: the Best-Tag Resolver implements exactly the spec's rule: the sole
label when the list is a singleton (even a comment label), otherwise the
first non-comment label in list order, and `"OTHER"` when the list is empty
or contains only comment labels. -/
theorem claim1_bestTag_resolver (tags : List String) :
    _bestTag tags = bestTagClaim tags := by
  match tags with
  | [] => rfl
  | [t] => rfl
  | t₁ :: t₂ :: ts =>
    show bestTagLoop (t₁ :: t₂ :: ts) = bestTagClaim (t₁ :: t₂ :: ts)
    rw [bestTagLoop_eq_find]
    rfl

theorem prefixStr_eq_bioPref (prev : Option (List String)) (t : String) :
    (match prev with
     | none => "B"
     | some p => if t ∈ p then "I" else "B") ++ "-" ++ t = bioPref prev t := by
  cases prev with
  | none => rfl
  | some p =>
    show (if t ∈ p then "I" else "B") ++ "-" ++ t
      = if t ∈ p then "I-" ++ t else "B-" ++ t
    by_cases h : t ∈ p
    · rw [if_pos h, if_pos h]; rfl
    · rw [if_neg h, if_neg h]; rfl

theorem addPrefixesGo_length (data : List (String × List String)) :
    ∀ prev : Option (List String), (addPrefixesGo prev data).length = data.length := by
  induction data with
  | nil => intro prev; rfl
  | cons hd rest ih =>
    intro prev
    obtain ⟨tok, tags⟩ := hd
    simp [addPrefixesGo, ih]

theorem addPrefixesGo_map_fst (data : List (String × List String)) :
    ∀ prev : Option (List String),
      (addPrefixesGo prev data).map Prod.fst = data.map Prod.fst := by
  induction data with
  | nil => intro prev; rfl
  | cons hd rest ih =>
    intro prev
    obtain ⟨tok, tags⟩ := hd
    simp [addPrefixesGo, ih]

theorem addPrefixesGo_getD (data : List (String × List String)) :
    ∀ (prev : Option (List String)) (i : ℕ), i < data.length →
      ((addPrefixesGo prev data).getD i ("", [])).2
        = ((data.getD i ("", [])).2).map
            (bioPref (if i = 0 then prev else some ((data.getD (i - 1) ("", [])).2))) := by
  induction data with
  | nil => intro prev i hi; simp at hi
  | cons hd rest ih =>
    intro prev i hi
    obtain ⟨tok, tags⟩ := hd
    match i with
    | 0 =>
      simp only [addPrefixesGo, List.getD_cons_zero, if_pos rfl]
      exact List.map_congr_left (fun t _ => prefixStr_eq_bioPref prev t)
    | j + 1 =>
      have hj : j < rest.length := by simpa using hi
      simp only [addPrefixesGo, List.getD_cons_succ]
      rw [ih (some tags) j hj]
      match j with
      | 0 => rfl
      | k + 1 => rfl

/-- C2: the BIO Prefixer keeps the tokens unchanged and in order; the first
token's labels all get prefix `B`, and a later token's label for field `F`
gets prefix `I` exactly when `F` is in the immediately preceding token's raw
match set (as recorded even when that set is empty), else `B`. -/
theorem claim2_bio_prefixer (data : List (String × List String)) (i : ℕ)
    (hi : i < data.length) :
    (_addPrefixes data).length = data.length ∧
    (_addPrefixes data).map Prod.fst = data.map Prod.fst ∧
    ((_addPrefixes data).getD i ("", [])).2
      = ((data.getD i ("", [])).2).map
          (bioPref (if i = 0 then none else some ((data.getD (i - 1) ("", [])).2))) :=
  ⟨addPrefixesGo_length data none, addPrefixesGo_map_fst data none,
    addPrefixesGo_getD data none i hi⟩

/-- Concrete three-token input exercising the `B`/`I` rule and the
empty-match-set edge case. -/
def dataW : List (String × List String) :=
  [("a", ["NAME"]), ("b", ["NAME", "QTY"]), ("c", [])]

theorem claim2_witness :
    1 < dataW.length ∧
    ((_addPrefixes dataW).length = dataW.length ∧
     (_addPrefixes dataW).map Prod.fst = dataW.map Prod.fst ∧
     ((_addPrefixes dataW).getD 1 ("", [])).2
       = ((dataW.getD 1 ("", [])).2).map
           (bioPref (if 1 = 0 then none else some ((dataW.getD (1 - 1) ("", [])).2)))) :=
  ⟨by decide, claim2_bio_prefixer dataW 1 (by decide)⟩

/-- C10: the mixed-number pattern of the Numeric Parser is anchored only at
the start, so inputs with trailing characters after a mixed-number prefix,
such as `"1 1/2x"` and `"1 1/23"`, parse to the prefix's value 1.50 instead
of failing to match. -/
theorem claim10_mixed_pattern_unanchored :
    _parseNumbers "1 1/2x" = .ok (some 150) ∧
    _parseNumbers "1 1/23" = .ok (some 150) := by
  decide

/-- Counterexample to C3 as stated: a zero denominator in a nominally
matching fraction raises a division error instead of yielding a value, and
the fully-anchored patterns also accept a single trailing newline, so
`"12\n"` and `"3 1/4abc"` do not yield "no match". -/
theorem claim3_counterexample :
    _parseNumbers "1/0" = .error PyErr.zeroDivisionError ∧
    _parseNumbers "12\n" = .ok (some 1200) ∧
    _parseNumbers "3 1/4abc" = .ok (some 325) := by
  decide

/-!
## The amended Numeric Parser contract (C3)
-/

theorem space_not_digit {c : Char} (h : pyIsSpace c = true) : c.isDigit = false := by
  simp only [pyIsSpace, Bool.or_eq_true, decide_eq_true_eq] at h
  rcases h with ((((h | h) | h) | h) | h) | h <;> subst h <;> decide

theorem digit_not_space {c : Char} (h : c.isDigit = true) : pyIsSpace c = false := by
  cases hsp : pyIsSpace c with
  | false => rfl
  | true => rw [space_not_digit hsp] at h; exact absurd h (by decide)

theorem digit_ne_newline {c : Char} (h : c.isDigit = true) : c ≠ '\n' := by
  intro he; subst he; exact absurd h (by decide)

theorem takeWhile_all_append {α : Type} {p : α → Bool} {xs : List α} (ys : List α)
    (h : ∀ x ∈ xs, p x = true) : (xs ++ ys).takeWhile p = xs ++ ys.takeWhile p := by
  induction xs with
  | nil => rfl
  | cons a l ih =>
    rw [List.cons_append, List.takeWhile_cons_of_pos (h a (by simp)), List.cons_append,
      ih (fun x hx => h x (by simp [hx]))]

theorem dropWhile_all_append {α : Type} {p : α → Bool} {xs : List α} (ys : List α)
    (h : ∀ x ∈ xs, p x = true) : (xs ++ ys).dropWhile p = ys.dropWhile p := by
  induction xs with
  | nil => rfl
  | cons a l ih =>
    rw [List.cons_append, List.dropWhile_cons_of_pos (h a (by simp)),
      ih (fun x hx => h x (by simp [hx]))]

theorem stripNL_cases {cs l : List Char} (h : stripNL cs = l) :
    cs = l ∨ cs = l ++ ['\n'] := by
  unfold stripNL at h
  split at h
  · next hl =>
    right
    have hne : cs ≠ [] := by intro h0; subst h0; simp at hl
    have hg : cs.getLast hne = '\n' := by
      rw [List.getLast?_eq_getLast cs hne] at hl
      exact Option.some_inj.mp hl
    have hd := List.dropLast_append_getLast hne
    rw [hg, h] at hd
    exact hd.symm
  · exact Or.inl h

theorem stripNL_concat_newline (l : List Char) : stripNL (l ++ ['\n']) = l := by
  unfold stripNL
  rw [List.getLast?_concat]
  rw [if_pos rfl]
  exact List.dropLast_concat

theorem stripNL_of_digits {ds : List Char} (hne : ds ≠ [])
    (hdig : ∀ c ∈ ds, c.isDigit = true) : stripNL ds = ds := by
  unfold stripNL
  rw [if_neg]
  rw [List.getLast?_eq_getLast ds hne]
  intro hsome
  have hlast := Option.some_inj.mp hsome
  exact digit_ne_newline (hdig _ (List.getLast_mem hne)) hlast

/-- The pure-digits pattern of rule 1 (`^\d+$`): all digits, with Python's
`$` also tolerating one trailing newline. -/
def intLineShape (cs : List Char) : Prop :=
  ∃ ds, (cs = ds ∨ cs = ds ++ ['\n']) ∧ ds ≠ [] ∧ ∀ c ∈ ds, c.isDigit = true

/-- The mixed-number pattern of rule 2 (`(\d+)\s+(\d)/(\d)`, start-anchored
only): digits, whitespace, digit, slash, digit, then anything. -/
def mixedShape (cs : List Char) : Prop :=
  ∃ ds ws n d rest, cs = ds ++ ws ++ n :: '/' :: d :: rest
    ∧ ds ≠ [] ∧ (∀ c ∈ ds, c.isDigit = true)
    ∧ ws ≠ [] ∧ (∀ c ∈ ws, pyIsSpace c = true)
    ∧ n.isDigit = true ∧ d.isDigit = true

/-- The simple-fraction pattern of rule 3 (`^(\d)/(\d)$`). -/
def fracShape (cs : List Char) : Prop :=
  ∃ n d, (cs = [n, '/', d] ∨ cs = [n, '/', d, '\n']) ∧ n.isDigit = true ∧ d.isDigit = true

/-- The amended C3 contract for the Numeric Parser, stated on the input
string (after `unclump`, per the source) and the parser's result: rule 1
(pure digits, one trailing newline tolerated) yields the integer's value in
hundredths; rule 2 (a mixed-number prefix, trailing characters ignored)
yields integer part plus fraction rounded to 2 places, except that a zero
denominator raises a division error; rule 3 (exactly digit/digit, one
trailing newline tolerated) yields the fraction rounded to 2 places, with
the same zero-denominator error; anything else yields "no match".  The
three patterns are mutually exclusive, so first-match-wins ordering is
captured by the disjunction. -/
def parseRel (s : String) (r : Except PyErr (Option ℤ)) : Prop :=
  (∃ ds, ((unclump s).data = ds ∨ (unclump s).data = ds ++ ['\n'])
     ∧ ds ≠ [] ∧ (∀ c ∈ ds, c.isDigit = true)
     ∧ r = .ok (some ((100 * natOfDigits ds : ℕ) : ℤ)))
  ∨ (∃ ds ws n d rest, (unclump s).data = ds ++ ws ++ n :: '/' :: d :: rest
       ∧ ds ≠ [] ∧ (∀ c ∈ ds, c.isDigit = true)
       ∧ ws ≠ [] ∧ (∀ c ∈ ws, pyIsSpace c = true)
       ∧ n.isDigit = true ∧ d.isDigit = true
       ∧ ((digitVal d = 0 ∧ r = .error .zeroDivisionError)
          ∨ (digitVal d ≠ 0
             ∧ r = .ok (some ((roundNearestAway ((natOfDigits ds * digitVal d + digitVal n) * 100)
                 (digitVal d) : ℕ) : ℤ)))))
  ∨ (∃ n d, ((unclump s).data = [n, '/', d] ∨ (unclump s).data = [n, '/', d, '\n'])
       ∧ n.isDigit = true ∧ d.isDigit = true
       ∧ ((digitVal d = 0 ∧ r = .error .zeroDivisionError)
          ∨ (digitVal d ≠ 0
             ∧ r = .ok (some ((roundNearestAway (digitVal n * 100) (digitVal d) : ℕ) : ℤ)))))
  ∨ (¬ intLineShape (unclump s).data ∧ ¬ mixedShape (unclump s).data
     ∧ ¬ fracShape (unclump s).data ∧ r = .ok none)

theorem matchIntTok_of_shape {cs : List Char} (h : intLineShape cs) : matchIntTok cs = true := by
  obtain ⟨ds, hor, hne, hdig⟩ := h
  have hstrip : stripNL cs = ds := by
    rcases hor with rfl | rfl
    · exact stripNL_of_digits hne hdig
    · exact stripNL_concat_newline ds
  simp only [matchIntTok, hstrip, Bool.and_eq_true, Bool.not_eq_true', List.all_eq_true]
  exact ⟨by simpa [List.isEmpty_iff] using hne, hdig⟩

theorem matchIntTok_shape {cs : List Char} (h : matchIntTok cs = true) :
    intLineShape cs ∧ stripNL cs ≠ [] ∧ ∀ c ∈ stripNL cs, c.isDigit = true := by
  simp only [matchIntTok, Bool.and_eq_true, Bool.not_eq_true', List.all_eq_true] at h
  obtain ⟨hne, hdig⟩ := h
  have hne' : stripNL cs ≠ [] := by simpa [List.isEmpty_iff] using hne
  exact ⟨⟨stripNL cs, stripNL_cases rfl, hne', hdig⟩, hne', hdig⟩

theorem matchMixed_some {cs : List Char} {t : ℕ × ℕ × ℕ} (h : matchMixed cs = some t) :
    ∃ ds ws n d rest, cs = ds ++ ws ++ n :: '/' :: d :: rest
      ∧ ds ≠ [] ∧ (∀ c ∈ ds, c.isDigit = true)
      ∧ ws ≠ [] ∧ (∀ c ∈ ws, pyIsSpace c = true)
      ∧ n.isDigit = true ∧ d.isDigit = true
      ∧ t = (natOfDigits ds, digitVal n, digitVal d) := by
  simp only [matchMixed] at h
  split at h
  · exact absurd h (by simp)
  · next hcond =>
    rw [Bool.or_eq_true, not_or] at hcond
    obtain ⟨hd1, hw1⟩ := hcond
    have hdne : cs.takeWhile Char.isDigit ≠ [] := by
      simpa [List.isEmpty_iff] using hd1
    have hwne : (cs.dropWhile Char.isDigit).takeWhile pyIsSpace ≠ [] := by
      simpa [List.isEmpty_iff] using hw1
    split at h
    · next n sl d tail heq =>
      split at h
      · next hdig =>
        rw [Bool.and_eq_true, Bool.and_eq_true, decide_eq_true_eq] at hdig
        obtain ⟨⟨hsl, hn⟩, hd⟩ := hdig
        subst hsl
        refine ⟨cs.takeWhile Char.isDigit, (cs.dropWhile Char.isDigit).takeWhile pyIsSpace,
          n, d, tail, ?_, hdne, fun c hc => List.mem_takeWhile_imp hc, hwne,
          fun c hc => List.mem_takeWhile_imp hc, hn, hd, (Option.some_inj.mp h).symm⟩
        have h1 := List.takeWhile_append_dropWhile Char.isDigit cs
        have h2 := List.takeWhile_append_dropWhile pyIsSpace (cs.dropWhile Char.isDigit)
        rw [heq] at h2
        rw [List.append_assoc, h2, h1]
      · exact absurd h (by simp)
    · exact absurd h (by simp)

theorem matchMixed_of_shape {cs : List Char} (h : mixedShape cs) :
    ∃ t, matchMixed cs = some t := by
  obtain ⟨ds, ws, n, d, rest, hcs, hdne, hdig, hwne, hws, hn, hd⟩ := h
  obtain ⟨w, ws', rfl⟩ := List.exists_cons_of_ne_nil hwne
  have hwsp : pyIsSpace w = true := hws w (by simp)
  have hTW : cs.takeWhile Char.isDigit = ds := by
    rw [hcs, List.append_assoc, takeWhile_all_append _ hdig, List.cons_append,
      List.takeWhile_cons_of_neg (by simp [space_not_digit hwsp]), List.append_nil]
  have hDW : cs.dropWhile Char.isDigit = w :: (ws' ++ n :: '/' :: d :: rest) := by
    rw [hcs, List.append_assoc, dropWhile_all_append _ hdig, List.cons_append,
      List.dropWhile_cons_of_neg (by simp [space_not_digit hwsp])]
  have hws' : ∀ c ∈ ws', pyIsSpace c = true := fun c hc => hws c (by simp [hc])
  have hTW2 : (cs.dropWhile Char.isDigit).takeWhile pyIsSpace = w :: ws' := by
    rw [hDW, List.takeWhile_cons_of_pos hwsp, takeWhile_all_append _ hws',
      List.takeWhile_cons_of_neg (by simp [digit_not_space hn]), List.append_nil]
  have hDW2 : (cs.dropWhile Char.isDigit).dropWhile pyIsSpace = n :: '/' :: d :: rest := by
    rw [hDW, List.dropWhile_cons_of_pos hwsp, dropWhile_all_append _ hws',
      List.dropWhile_cons_of_neg (by simp [digit_not_space hn])]
  refine ⟨(natOfDigits ds, digitVal n, digitVal d), ?_⟩
  simp only [matchMixed, hTW, hTW2, hDW2]
  rw [if_neg]
  · simp [hn, hd]
  · have hde : ds.isEmpty = false := by simpa [List.isEmpty_iff] using hdne
    simp [hde]

theorem matchFrac_some {cs : List Char} {t : ℕ × ℕ} (h : matchFrac cs = some t) :
    ∃ n d, (cs = [n, '/', d] ∨ cs = [n, '/', d, '\n'])
      ∧ n.isDigit = true ∧ d.isDigit = true ∧ t = (digitVal n, digitVal d) := by
  simp only [matchFrac] at h
  split at h
  · next n sl d heq =>
    split at h
    · next hdig =>
      rw [Bool.and_eq_true, Bool.and_eq_true, decide_eq_true_eq] at hdig
      obtain ⟨⟨hsl, hn⟩, hd⟩ := hdig
      subst hsl
      exact ⟨n, d, stripNL_cases heq, hn, hd, (Option.some_inj.mp h).symm⟩
    · exact absurd h (by simp)
  · exact absurd h (by simp)

theorem matchFrac_of_shape {cs : List Char} (h : fracShape cs) :
    ∃ t, matchFrac cs = some t := by
  obtain ⟨n, d, hor, hn, hd⟩ := h
  have hstrip : stripNL cs = [n, '/', d] := by
    rcases hor with rfl | rfl
    · unfold stripNL
      rw [if_neg]
      show ¬([n, '/', d].getLast? = some '\n')
      have : [n, '/', d].getLast? = some d := rfl
      rw [this]
      intro hsome
      exact digit_ne_newline hd (Option.some_inj.mp hsome)
    · exact stripNL_concat_newline [n, '/', d]
  refine ⟨(digitVal n, digitVal d), ?_⟩
  simp only [matchFrac, hstrip]
  simp [hn, hd]

/-- C3, amended: the Numeric Parser satisfies the amended rule set
`parseRel`: pure digits (one trailing newline tolerated) parse as the
integer; a mixed-number prefix (trailing characters ignored) parses as
integer part plus fraction rounded to two places; exactly digit/digit (one
trailing newline tolerated) parses as the fraction rounded to two places; a
zero denominator in a matching fraction raises a division error; everything
else is "no match". -/
theorem claim3_amended_numeric_rules (s : String) : parseRel s (_parseNumbers s) := by
  cases hInt : matchIntTok s.data with
  | true =>
    obtain ⟨hshape, hne, hdig⟩ := matchIntTok_shape hInt
    left
    refine ⟨stripNL s.data, stripNL_cases rfl, hne, hdig, ?_⟩
    simp only [_parseNumbers, unclump, hInt, if_true]
  | false =>
    cases hMix : matchMixed s.data with
    | some t =>
      obtain ⟨ds, ws, n, d, rest, hcs, hdne, hdsdig, hwne, hws, hn, hd, ht⟩ := matchMixed_some hMix
      right; left
      refine ⟨ds, ws, n, d, rest, hcs, hdne, hdsdig, hwne, hws, hn, hd, ?_⟩
      by_cases hz : digitVal d = 0
      · left
        refine ⟨hz, ?_⟩
        simp [_parseNumbers, unclump, hInt, hMix, ht, hz]
      · right
        refine ⟨hz, ?_⟩
        simp only [_parseNumbers, unclump, hInt, Bool.false_eq_true, if_false, hMix, ht]
        rw [if_neg hz]
    | none =>
      cases hFr : matchFrac s.data with
      | some t =>
        obtain ⟨n, d, hor, hn, hd, ht⟩ := matchFrac_some hFr
        right; right; left
        refine ⟨n, d, hor, hn, hd, ?_⟩
        by_cases hz : digitVal d = 0
        · left
          refine ⟨hz, ?_⟩
          simp [_parseNumbers, unclump, hInt, hMix, hFr, ht, hz]
        · right
          refine ⟨hz, ?_⟩
          simp only [_parseNumbers, unclump, hInt, Bool.false_eq_true, if_false, hMix, hFr, ht]
          rw [if_neg hz]
      | none =>
        right; right; right
        refine ⟨?_, ?_, ?_, ?_⟩
        · intro hshape
          rw [show (unclump s).data = s.data from rfl] at hshape
          rw [matchIntTok_of_shape hshape] at hInt
          exact absurd hInt (by simp)
        · intro hshape
          rw [show (unclump s).data = s.data from rfl] at hshape
          obtain ⟨t, ht⟩ := matchMixed_of_shape hshape
          rw [ht] at hMix
          exact absurd hMix (by simp)
        · intro hshape
          rw [show (unclump s).data = s.data from rfl] at hshape
          obtain ⟨t, ht⟩ := matchFrac_of_shape hshape
          rw [ht] at hFr
          exact absurd hFr (by simp)
        · simp only [_parseNumbers, unclump, hInt, Bool.false_eq_true, if_false, hMix, hFr]

/-!
## The Matcher's multiplicities (C4)
-/

theorem contrib_mem {tok : String} {dt : Option ℤ} {k : String} {v : FieldValue} {x : String}
    (h : x ∈ fieldContrib tok dt k v) : x = strUpper k := by
  cases v with
  | str s2 =>
    simp only [fieldContrib] at h
    obtain ⟨vt, _, hx⟩ := List.mem_map.mp h
    exact hx.symm
  | dec q =>
    cases dt with
    | none => simp [fieldContrib] at h
    | some d =>
      simp only [fieldContrib] at h
      by_cases hq : q = d
      · rw [if_pos hq] at h
        simpa using h
      · rw [if_neg hq] at h
        simp at h

theorem contrib_count_ne {tok : String} {dt : Option ℤ} {k : String} {v : FieldValue}
    {u : String} (hne : strUpper k ≠ u) : (fieldContrib tok dt k v).count u = 0 := by
  rw [List.count_eq_zero]
  intro hmem
  exact hne (contrib_mem hmem).symm

theorem contrib_count_self (tok : String) (dt : Option ℤ) (k : String) (v : FieldValue) :
    (fieldContrib tok dt k v).count (strUpper k)
      = match v with
        | .str s2 => ((tokenize s2).filter (fun vt => normalizeToken vt = tok)).length
        | .dec q => if dt = some q then 1 else 0 := by
  cases v with
  | str s2 =>
    show (((tokenize s2).filter _).map fun _ => strUpper k).count (strUpper k) = _
    rw [List.map_const', List.count_replicate_self]
  | dec q =>
    cases dt with
    | none =>
      show (List.count _ []) = if (none : Option ℤ) = some q then 1 else 0
      simp
    | some d =>
      by_cases hq : q = d
      · subst hq
        show List.count _ (if q = q then [strUpper k] else []) = if some q = some q then 1 else 0
        simp
      · show List.count _ (if q = d then [strUpper k] else []) = if some d = some q then 1 else 0
        rw [if_neg hq, if_neg (fun hsome => hq (Option.some_inj.mp hsome).symm)]
        simp

theorem matchLoop_count {tok : String} {dt : Option ℤ} {row : Row} {ks : List String}
    {res : List String} (h : matchLoop tok dt row ks = .ok res) (u : String) :
    res.count u
      = (ks.map (fun k => match row.get k with
          | some v => (fieldContrib tok dt k v).count u
          | none => 0)).sum := by
  induction ks generalizing res with
  | nil =>
    simp only [matchLoop] at h
    cases h
    rfl
  | cons k ks ih =>
    simp only [matchLoop] at h
    cases hget : row.get k with
    | none => rw [hget] at h; exact absurd h (by simp)
    | some v =>
      rw [hget] at h
      cases hrest : matchLoop tok dt row ks with
      | error e => rw [hrest] at h; exact absurd h (by simp [Except.map])
      | ok rest =>
        rw [hrest] at h
        have hres : res = fieldContrib tok dt k v ++ rest := by
          simpa [Except.map] using h.symm
        subst hres
        rw [List.count_append, List.map_cons, List.sum_cons, hget, ih hrest]

theorem matchLoop_ok_get {tok : String} {dt : Option ℤ} {row : Row} {ks : List String}
    {res : List String} (h : matchLoop tok dt row ks = .ok res) :
    ∀ k ∈ ks, ∃ v, row.get k = some v := by
  induction ks generalizing res with
  | nil => intro k hk; simp at hk
  | cons k0 ks ih =>
    intro k hk
    simp only [matchLoop] at h
    cases hget : row.get k0 with
    | none => rw [hget] at h; exact absurd h (by simp)
    | some v =>
      rw [hget] at h
      cases hrest : matchLoop tok dt row ks with
      | error e => rw [hrest] at h; exact absurd h (by simp [Except.map])
      | ok rest =>
        rcases List.mem_cons.mp hk with rfl | hk'
        · exact ⟨v, hget⟩
        · exact ih hrest k hk'

/-- C4, amended: the Matcher's result is a list, not a set: for each field
in the priority order, the uppercased field name occurs once per sub-token
of a textual field's value whose normalization equals the normalized token
(so several equal sub-tokens produce duplicates), and at most once for a
numeric field. -/
theorem claim4_amended_matcher_multiplicity (token : String) (row : Row) (res : List String)
    (dt : Option ℤ) (k : String)
    (hres : _matchUp token row = .ok res)
    (hdt : _parseNumbers (normalizeToken token) = .ok dt)
    (hk : k ∈ fieldOrder) :
    res.count (strUpper k)
      = match row.get k with
        | some (.str v) =>
          ((tokenize v).filter (fun vt => normalizeToken vt = normalizeToken token)).length
        | some (.dec q) => if dt = some q then 1 else 0
        | none => 0 := by
  simp only [_matchUp, hdt] at hres
  have hcount := matchLoop_count hres (strUpper k)
  have hget := matchLoop_ok_get hres
  have hall : ∀ k2 ∈ fieldOrder, ∃ v, row.get k2 = some v := hget
  obtain ⟨v0, h0⟩ := hall "index" (by simp [fieldOrder])
  obtain ⟨v1, h1⟩ := hall "name" (by simp [fieldOrder])
  obtain ⟨v2, h2⟩ := hall "qty" (by simp [fieldOrder])
  obtain ⟨v3, h3⟩ := hall "range_end" (by simp [fieldOrder])
  obtain ⟨v4, h4⟩ := hall "unit" (by simp [fieldOrder])
  obtain ⟨v5, h5⟩ := hall "comment" (by simp [fieldOrder])
  rw [show fieldOrder = ["index", "name", "qty", "range_end", "unit", "comment"] from rfl]
    at hcount
  simp only [List.map_cons, List.map_nil, List.sum_cons, List.sum_nil, h0, h1, h2, h3, h4, h5]
    at hcount
  have hku : k = "index" ∨ k = "name" ∨ k = "qty" ∨ k = "range_end" ∨ k = "unit"
      ∨ k = "comment" := by simpa [fieldOrder] using hk
  rcases hku with rfl | rfl | rfl | rfl | rfl | rfl
  · rw [h0, hcount,
      contrib_count_ne (v := v1) (by decide : strUpper ("name" : String) ≠ strUpper ("index" : String)),
      contrib_count_ne (v := v2) (by decide : strUpper ("qty" : String) ≠ strUpper ("index" : String)),
      contrib_count_ne (v := v3) (by decide : strUpper ("range_end" : String) ≠ strUpper ("index" : String)),
      contrib_count_ne (v := v4) (by decide : strUpper ("unit" : String) ≠ strUpper ("index" : String)),
      contrib_count_ne (v := v5) (by decide : strUpper ("comment" : String) ≠ strUpper ("index" : String)),
      contrib_count_self]
    cases v0 <;> simp
  · rw [h1, hcount,
      contrib_count_ne (v := v0) (by decide : strUpper ("index" : String) ≠ strUpper ("name" : String)),
      contrib_count_ne (v := v2) (by decide : strUpper ("qty" : String) ≠ strUpper ("name" : String)),
      contrib_count_ne (v := v3) (by decide : strUpper ("range_end" : String) ≠ strUpper ("name" : String)),
      contrib_count_ne (v := v4) (by decide : strUpper ("unit" : String) ≠ strUpper ("name" : String)),
      contrib_count_ne (v := v5) (by decide : strUpper ("comment" : String) ≠ strUpper ("name" : String)),
      contrib_count_self]
    cases v1 <;> simp
  · rw [h2, hcount,
      contrib_count_ne (v := v0) (by decide : strUpper ("index" : String) ≠ strUpper ("qty" : String)),
      contrib_count_ne (v := v1) (by decide : strUpper ("name" : String) ≠ strUpper ("qty" : String)),
      contrib_count_ne (v := v3) (by decide : strUpper ("range_end" : String) ≠ strUpper ("qty" : String)),
      contrib_count_ne (v := v4) (by decide : strUpper ("unit" : String) ≠ strUpper ("qty" : String)),
      contrib_count_ne (v := v5) (by decide : strUpper ("comment" : String) ≠ strUpper ("qty" : String)),
      contrib_count_self]
    cases v2 <;> simp
  · rw [h3, hcount,
      contrib_count_ne (v := v0) (by decide : strUpper ("index" : String) ≠ strUpper ("range_end" : String)),
      contrib_count_ne (v := v1) (by decide : strUpper ("name" : String) ≠ strUpper ("range_end" : String)),
      contrib_count_ne (v := v2) (by decide : strUpper ("qty" : String) ≠ strUpper ("range_end" : String)),
      contrib_count_ne (v := v4) (by decide : strUpper ("unit" : String) ≠ strUpper ("range_end" : String)),
      contrib_count_ne (v := v5) (by decide : strUpper ("comment" : String) ≠ strUpper ("range_end" : String)),
      contrib_count_self]
    cases v3 <;> simp
  · rw [h4, hcount,
      contrib_count_ne (v := v0) (by decide : strUpper ("index" : String) ≠ strUpper ("unit" : String)),
      contrib_count_ne (v := v1) (by decide : strUpper ("name" : String) ≠ strUpper ("unit" : String)),
      contrib_count_ne (v := v2) (by decide : strUpper ("qty" : String) ≠ strUpper ("unit" : String)),
      contrib_count_ne (v := v3) (by decide : strUpper ("range_end" : String) ≠ strUpper ("unit" : String)),
      contrib_count_ne (v := v5) (by decide : strUpper ("comment" : String) ≠ strUpper ("unit" : String)),
      contrib_count_self]
    cases v4 <;> simp
  · rw [h5, hcount,
      contrib_count_ne (v := v0) (by decide : strUpper ("index" : String) ≠ strUpper ("comment" : String)),
      contrib_count_ne (v := v1) (by decide : strUpper ("name" : String) ≠ strUpper ("comment" : String)),
      contrib_count_ne (v := v2) (by decide : strUpper ("qty" : String) ≠ strUpper ("comment" : String)),
      contrib_count_ne (v := v3) (by decide : strUpper ("range_end" : String) ≠ strUpper ("comment" : String)),
      contrib_count_ne (v := v4) (by decide : strUpper ("unit" : String) ≠ strUpper ("comment" : String)),
      contrib_count_self]
    cases v5 <;> simp

/-- A record whose `name` field tokenizes into two equal sub-tokens: the
matcher reports `NAME` twice for the matching token. -/
def rowDup : Row :=
  { index := some (.str ""), name := some (.str "flour flour"), qty := some (.dec 200),
    range_end := some (.str ""), unit := some (.str ""), comment := some (.str ""),
    input := some (.str "") }

/-- Counterexample to C4 as stated: `_matchUp` returns the field name
`NAME` twice when the token equals two distinct sub-tokens of the `name`
field's value, so the result is not duplicate-free. -/
theorem claim4_counterexample :
    _matchUp "flour" rowDup = .ok ["NAME", "NAME"] := by decide

theorem claim4_witness :
    _matchUp "flour" rowDup = .ok ["NAME", "NAME"] ∧
    _parseNumbers (normalizeToken "flour") = .ok none ∧
    "name" ∈ fieldOrder ∧
    (["NAME", "NAME"].count (strUpper "name")
      = match rowDup.get "name" with
        | some (.str v) =>
          ((tokenize v).filter (fun vt => normalizeToken vt = normalizeToken "flour")).length
        | some (.dec q) => if (none : Option ℤ) = some q then 1 else 0
        | none => 0) :=
  ⟨by decide, by decide, by decide,
    claim4_amended_matcher_multiplicity "flour" rowDup ["NAME", "NAME"] none "name"
      (by decide) (by decide) (by decide)⟩

/-!
## The end-to-end record (C5) and the mutation frame (C9, C6)
-/

/-- The spec's end-to-end record `{input: "2 cups flour", qty: 2.00, unit:
"cups", name: "flour"}`; the remaining required structured fields, which
the spec's example omits, are present with empty text (translation raises a
missing-key failure if any of the six structured keys is absent). -/
def rowEx : Row :=
  { index := some (.str ""), name := some (.str "flour"), qty := some (.dec 200),
    range_end := some (.str ""), unit := some (.str "cups"), comment := some (.str ""),
    input := some (.str "2 cups flour") }

/-- C5: translating the end-to-end record yields exactly three newline
terminated lines whose final (tab-separated) fields are, in order,
`B-QTY`, `B-UNIT` and `B-NAME`. -/
theorem claim5_end_to_end :
    ((translate_row rowEx).1.map (fun out => (splitLinesS out).length)) = .ok 4 ∧
    ((translate_row rowEx).1.map (fun out => (splitLinesS out).getLastD "X")) = .ok "" ∧
    ((translate_row rowEx).1.map (fun out =>
        (splitLinesS out).dropLast.map (fun l => (splitTabsS l).getLastD "X")))
      = .ok ["B-QTY", "B-UNIT", "B-NAME"] := by
  decide

/-- C9: a call on a record whose display string is present deletes the
`input` key (the post-call record maps it to nothing) and leaves the six
structured fields untouched. -/
theorem claim9_deletes_input (row : Row) (s : String)
    (h : row.input = some (FieldValue.str s)) :
    (translate_row row).2.input = none ∧
    (translate_row row).2.index = row.index ∧
    (translate_row row).2.name = row.name ∧
    (translate_row row).2.qty = row.qty ∧
    (translate_row row).2.range_end = row.range_end ∧
    (translate_row row).2.unit = row.unit ∧
    (translate_row row).2.comment = row.comment := by
  have hget : row.get "input" = some (FieldValue.str s) := by
    rw [show row.get "input" = row.input from rfl, h]
  simp only [translate_row, hget]
  cases hE : rowDataE (tokenize (cleanUnicodeFractions s)) row.delInput with
  | error e => simp [hE, Row.delInput]
  | ok rd => simp [hE, Row.delInput]

theorem claim9_witness :
    rowEx.input = some (FieldValue.str "2 cups flour") ∧
    ((translate_row rowEx).2.input = none ∧
     (translate_row rowEx).2.index = rowEx.index ∧
     (translate_row rowEx).2.name = rowEx.name ∧
     (translate_row rowEx).2.qty = rowEx.qty ∧
     (translate_row rowEx).2.range_end = rowEx.range_end ∧
     (translate_row rowEx).2.unit = rowEx.unit ∧
     (translate_row rowEx).2.comment = rowEx.comment) :=
  ⟨rfl, claim9_deletes_input rowEx "2 cups flour" rfl⟩

/-- C6, amended: translation is deterministic on equal record values, but a
second invocation on the very same record is not identical to the first:
a successful call removes the `input` key, so the follow-up call fails with
the missing-key failure for `input`. -/
theorem claim6_amended_second_call_fails (row : Row)
    (h : isOkE (translate_row row).1 = true) :
    (translate_row ((translate_row row).2)).1 = .error (.keyError "input") := by
  cases hv : row.input with
  | none =>
    have hget : row.get "input" = none := by
      rw [show row.get "input" = row.input from rfl, hv]
    simp [translate_row, hget, isOkE] at h
  | some v =>
    have hget : row.get "input" = some v := by
      rw [show row.get "input" = row.input from rfl, hv]
    cases v with
    | dec q => simp [translate_row, hget, isOkE] at h
    | str s =>
      have hstate : (translate_row row).2 = row.delInput := by
        simp only [translate_row, hget]
        cases hE : rowDataE (tokenize (cleanUnicodeFractions s)) row.delInput with
        | error e => simp [hE]
        | ok rd => simp [hE]
      rw [hstate]
      have hget2 : (row.delInput).get "input" = none := rfl
      simp [translate_row, hget2]

/-- Counterexample to C6 as stated: invoking the Row Translator twice on
the same record does not yield identical output — the first call on the
end-to-end record succeeds, and the second call (on the record as the first
call left it) fails with the missing-key failure for `input`. -/
theorem claim6_counterexample :
    (translate_row ((translate_row rowEx).2)).1 = .error (PyErr.keyError "input") ∧
    (translate_row rowEx).1 ≠ (translate_row ((translate_row rowEx).2)).1 := by
  decide

theorem claim6_witness :
    isOkE (translate_row rowEx).1 = true ∧
    (translate_row ((translate_row rowEx).2)).1 = .error (.keyError "input") :=
  ⟨by decide, claim6_amended_second_call_fails rowEx (by decide)⟩

/-!
## Missing-key failures and the no-failure path (C7)
-/

theorem isOkE_iff {ε α : Type} {e : Except ε α} : isOkE e = true ↔ ∃ a, e = .ok a := by
  cases e <;> simp [isOkE]

theorem get_delInput (row : Row) (k : String) (hk : k ∈ fieldOrder) :
    row.delInput.get k = row.get k := by
  have hku : k = "index" ∨ k = "name" ∨ k = "qty" ∨ k = "range_end" ∨ k = "unit"
      ∨ k = "comment" := by simpa [fieldOrder] using hk
  rcases hku with rfl | rfl | rfl | rfl | rfl | rfl <;> rfl

theorem matchLoop_firstMissing {tok : String} {dt : Option ℤ} (row row2 : Row)
    {ks : List String} {k : String}
    (hfind : ks.find? (fun k2 => (row.get k2).isNone) = some k)
    (hagree : ∀ k2 ∈ ks, row2.get k2 = row.get k2) :
    matchLoop tok dt row2 ks = .error (.keyError k) := by
  induction ks with
  | nil => simp at hfind
  | cons k0 ks ih =>
    by_cases h0 : (row.get k0).isNone = true
    · rw [List.find?_cons_of_pos (p := fun k2 => (row.get k2).isNone) ks h0] at hfind
      have hk0 : k = k0 := (Option.some_inj.mp hfind).symm
      subst hk0
      have hnone : row2.get k = none := by
        rw [hagree k (by simp)]
        exact Option.isNone_iff_eq_none.mp h0
      simp [matchLoop, hnone]
    · rw [List.find?_cons_of_neg (p := fun k2 => (row.get k2).isNone) ks h0] at hfind
      obtain ⟨v, hv⟩ : ∃ v, row2.get k0 = some v := by
        rw [hagree k0 (by simp)]
        cases hg : row.get k0 with
        | none => rw [hg] at h0; simp at h0
        | some v => exact ⟨v, rfl⟩
      have hrec := ih hfind (fun k2 hk2 => hagree k2 (by simp [hk2]))
      simp [matchLoop, hv, hrec, Except.map]

theorem matchLoop_ok (tok : String) (dt : Option ℤ) {row2 : Row} {ks : List String}
    (hp : ∀ k2 ∈ ks, (row2.get k2).isNone = false) :
    ∃ res, matchLoop tok dt row2 ks = .ok res := by
  induction ks with
  | nil => exact ⟨[], rfl⟩
  | cons k0 ks ih =>
    obtain ⟨v, hv⟩ : ∃ v, row2.get k0 = some v := by
      cases hg : row2.get k0 with
      | none => have := hp k0 (by simp); rw [hg] at this; simp at this
      | some v => exact ⟨v, rfl⟩
    obtain ⟨res, hres⟩ := ih (fun k2 hk2 => hp k2 (by simp [hk2]))
    exact ⟨fieldContrib tok dt k0 v ++ res, by simp [matchLoop, hv, hres, Except.map]⟩

theorem rowDataE_ok {row2 : Row} {toks : List String}
    (hall : ∀ t2 ∈ toks, isOkE (_parseNumbers (normalizeToken t2)) = true)
    (hpresent : ∀ k2 ∈ fieldOrder, (row2.get k2).isNone = false) :
    ∃ rd, rowDataE toks row2 = .ok rd := by
  induction toks with
  | nil => exact ⟨[], rfl⟩
  | cons t toks ih =>
    obtain ⟨dt, hdt⟩ := isOkE_iff.mp (hall t (by simp))
    obtain ⟨res, hres⟩ := matchLoop_ok (normalizeToken t) dt hpresent
    have hmu : _matchUp t row2 = .ok res := by simp only [_matchUp, hdt, hres]
    obtain ⟨rd, hrd⟩ := ih (fun t2 ht2 => hall t2 (by simp [ht2]))
    exact ⟨(t, res) :: rd, by simp [rowDataE, hmu, hrd, Except.map]⟩

/-- C7, amended: a missing display string fails with the `input`
missing-key failure; a record missing a structured field fails with the
missing-key failure for the first missing field in priority order,
provided the display string yields at least one token whose numeric parse
does not itself raise; when every required key is present and no token's
numeric parse raises, translation succeeds — a token matching no field is
not a failure, the empty match set stays empty through BIO prefixing, and
the Best-Tag Resolver maps it to the fallback label `OTHER`.  (With an
empty token list the matcher never runs, so a missing structured field
then goes unnoticed.) -/
theorem claim7_amended_error_handling (row : Row) (s t : String) (ts : List String)
    (k : String) (dt : Option ℤ) :
    (row.input = none → translate_row row = (.error (.keyError "input"), row)) ∧
    (row.input = some (.str s) →
      tokenize (cleanUnicodeFractions s) = t :: ts →
      _parseNumbers (normalizeToken t) = .ok dt →
      firstMissingKey row = some k →
      (translate_row row).1 = .error (.keyError k)) ∧
    (row.input = some (.str s) →
      firstMissingKey row = none →
      (∀ t2 ∈ tokenize (cleanUnicodeFractions s),
        isOkE (_parseNumbers (normalizeToken t2)) = true) →
      isOkE (translate_row row).1 = true) ∧
    (∀ pd : List (String × List String), ∀ i : ℕ, i < pd.length →
      (pd.getD i ("", [])).2 = [] → ((_addPrefixes pd).getD i ("", [])).2 = []) ∧
    _bestTag [] = "OTHER" := by
  refine ⟨?_, ?_, ?_, ?_, rfl⟩
  · intro h0
    have hget : row.get "input" = none := by
      rw [show row.get "input" = row.input from rfl, h0]
    simp [translate_row, hget]
  · intro hin htok hp hkm
    have hget : row.get "input" = some (.str s) := by
      rw [show row.get "input" = row.input from rfl, hin]
    have hml : matchLoop (normalizeToken t) dt row.delInput fieldOrder
        = .error (.keyError k) :=
      matchLoop_firstMissing row row.delInput hkm (fun k2 hk2 => get_delInput row k2 hk2)
    have hmu : _matchUp t row.delInput = .error (.keyError k) := by
      simp only [_matchUp, hp, hml]
    simp [translate_row, hget, htok, rowDataE, hmu]
  · intro hin hnone hall
    have hget : row.get "input" = some (.str s) := by
      rw [show row.get "input" = row.input from rfl, hin]
    have hpresent : ∀ k2 ∈ fieldOrder, ((row.delInput).get k2).isNone = false := by
      intro k2 hk2
      rw [get_delInput row k2 hk2]
      exact Bool.eq_false_iff.mpr (List.find?_eq_none.mp hnone k2 hk2)
    obtain ⟨rd, hrd⟩ := rowDataE_ok hall hpresent
    simp [translate_row, hget, hrd, isOkE]
  · intro pd i hi hempty
    have hgo := addPrefixesGo_getD pd none i hi
    rw [hempty] at hgo
    simpa [_addPrefixes] using hgo

/-- A record missing the required `name` field whose display string is
empty: no token is ever matched, so translation succeeds. -/
def rowMissEmptyInput : Row :=
  { index := some (.str ""), name := none, qty := some (.dec 200),
    range_end := some (.str ""), unit := some (.str "cups"), comment := some (.str ""),
    input := some (.str "") }

/-- Counterexample to C7 as stated: this record is missing the required
structured field `name`, yet translation does not fail — it returns the
empty output, because the empty display string yields no tokens and the
matcher (where the key lookups happen) never runs. -/
theorem claim7_counterexample :
    rowMissEmptyInput.name = none ∧
    (translate_row rowMissEmptyInput).1 = .ok "" := by
  decide

/-- A record missing the required `name` field with a real display string. -/
def rowMissName : Row :=
  { index := some (.str ""), name := none, qty := some (.dec 200),
    range_end := some (.str ""), unit := some (.str "cups"), comment := some (.str ""),
    input := some (.str "2 cups flour") }

theorem claim7_witness :
    rowMissName.input = some (FieldValue.str "2 cups flour") ∧
    tokenize (cleanUnicodeFractions "2 cups flour") = "2" :: ["cups", "flour"] ∧
    _parseNumbers (normalizeToken "2") = .ok (some 200) ∧
    firstMissingKey rowMissName = some "name" ∧
    (translate_row rowMissName).1 = .error (.keyError "name") :=
  ⟨by decide, by decide, by decide, by decide,
    (claim7_amended_error_handling rowMissName "2 cups flour" "2" ["cups", "flour"] "name"
        (some 200)).2.1 (by decide) (by decide) (by decide) (by decide)⟩

/-!
## Output-line structure (C8): split/join lemmas and character cleanliness
-/

theorem splitOnCharL_cons (c a : Char) (as : List Char) :
    splitOnCharL c (a :: as)
      = match splitOnCharL c as with
        | [] => [[a]]
        | l :: ls => if a = c then [] :: l :: ls else (a :: l) :: ls := rfl

theorem splitOnCharL_ne_nil (c : Char) (cs : List Char) : splitOnCharL c cs ≠ [] := by
  induction cs with
  | nil => simp [splitOnCharL]
  | cons a as ih =>
    rw [splitOnCharL_cons]
    cases h : splitOnCharL c as with
    | nil => simp
    | cons l ls => by_cases hac : a = c <;> simp [hac]

theorem splitOnCharL_no {c : Char} {xs : List Char} (h : ∀ x ∈ xs, x ≠ c) :
    splitOnCharL c xs = [xs] := by
  induction xs with
  | nil => rfl
  | cons a as ih =>
    have ha : a ≠ c := h a (by simp)
    rw [splitOnCharL_cons, ih (fun x hx => h x (by simp [hx]))]
    simp [ha]

theorem splitOnCharL_sep {c : Char} {xs : List Char} (ys : List Char)
    (h : ∀ x ∈ xs, x ≠ c) :
    splitOnCharL c (xs ++ c :: ys) = xs :: splitOnCharL c ys := by
  induction xs with
  | nil =>
    rw [List.nil_append, splitOnCharL_cons]
    cases hy : splitOnCharL c ys with
    | nil => exact absurd hy (splitOnCharL_ne_nil c ys)
    | cons l ls => simp
  | cons a as ih =>
    have ha : a ≠ c := h a (by simp)
    rw [List.cons_append, splitOnCharL_cons, ih (fun x hx => h x (by simp [hx]))]
    simp [ha]

theorem interChar_no {c sep : Char} {parts : List (List Char)} (hcs : c ≠ sep)
    (h : ∀ p ∈ parts, c ∉ p) : c ∉ interChar sep parts := by
  induction parts with
  | nil => simp [interChar]
  | cons l ls ih =>
    cases ls with
    | nil => simpa [interChar] using h l (by simp)
    | cons l2 ls2 =>
      simp only [interChar]
      intro hmem
      rcases List.mem_append.mp hmem with hm | hm
      · exact h l (by simp) hm
      · rcases List.mem_cons.mp hm with rfl | hm2
        · exact hcs rfl
        · exact ih (fun p hp => h p (by simp [hp])) hm2

theorem interChar_split {c : Char} {parts : List (List Char)} (hne : parts ≠ [])
    (h : ∀ p ∈ parts, c ∉ p) : splitOnCharL c (interChar c parts) = parts := by
  induction parts with
  | nil => exact absurd rfl hne
  | cons l ls ih =>
    cases ls with
    | nil =>
      show splitOnCharL c l = [l]
      exact splitOnCharL_no (fun x hx heq => h l (by simp) (by rwa [heq] at hx))
    | cons l2 ls2 =>
      show splitOnCharL c (l ++ c :: interChar c (l2 :: ls2)) = l :: l2 :: ls2
      rw [splitOnCharL_sep _ (fun x hx heq => h l (by simp) (by rwa [heq] at hx)),
        ih (by simp) (fun p hp => h p (by simp [hp]))]

/-- The string contains neither a tab nor a newline, so it survives the
line and field splitting intact. -/
def cleanStr (x : String) : Prop := ∀ c ∈ x.data, c ≠ '\t' ∧ c ≠ '\n'

instance (x : String) : Decidable (cleanStr x) :=
  List.decidableBAll _ x.data

theorem cleanStr_append {a b : String} (ha : cleanStr a) (hb : cleanStr b) :
    cleanStr (a ++ b) := by
  intro c hc
  rw [String.data_append] at hc
  rcases List.mem_append.mp hc with h | h
  exacts [ha c h, hb c h]

theorem wsSplitGo_clean : ∀ (cs cur : List Char), (∀ c ∈ cur, pyIsSpace c = false) →
    ∀ l ∈ wsSplitGo cur cs, ∀ c ∈ l, pyIsSpace c = false := by
  intro cs
  induction cs with
  | nil =>
    intro cur hcur l hl c hc
    simp only [wsSplitGo] at hl
    split at hl
    · simp at hl
    · have hle : l = cur.reverse := by simpa using hl
      subst hle
      exact hcur c (by simpa using hc)
  | cons c0 cs ih =>
    intro cur hcur l hl c hc
    simp only [wsSplitGo] at hl
    by_cases hsp : pyIsSpace c0 = true
    · rw [if_pos hsp] at hl
      split at hl
      · exact ih [] (by simp) l hl c hc
      · rcases List.mem_cons.mp hl with rfl | hl2
        · exact hcur c (by simpa using hc)
        · exact ih [] (by simp) l hl2 c hc
    · rw [if_neg hsp] at hl
      refine ih (c0 :: cur) ?_ l hl c hc
      intro x hx
      rcases List.mem_cons.mp hx with rfl | hx2
      · exact Bool.eq_false_iff.mpr hsp
      · exact hcur x hx2

theorem tokenize_clean {s0 t : String} (ht : t ∈ tokenize s0) : cleanStr t := by
  obtain ⟨l, hl, rfl⟩ := List.mem_map.mp ht
  intro c hc
  have hsp := wsSplitGo_clean s0.data [] (by simp) l hl c (by simpa using hc)
  constructor
  · intro he; subst he; simp [pyIsSpace] at hsp
  · intro he; subst he; simp [pyIsSpace] at hsp

theorem digitChar_isDigit (k : ℕ) : (digitChar k).isDigit = true := by
  unfold digitChar
  split <;> decide

theorem natDigitsAux_digits : ∀ (fuel n : ℕ), ∀ c ∈ natDigitsAux fuel n, c.isDigit = true := by
  intro fuel
  induction fuel with
  | zero => intro n c hc; simp [natDigitsAux] at hc
  | succ fuel ih =>
    intro n c hc
    simp only [natDigitsAux] at hc
    split at hc
    · have : c = digitChar n := by simpa using hc
      subst this
      exact digitChar_isDigit n
    · rcases List.mem_append.mp hc with h1 | h2
      · exact ih _ c h1
      · have : c = digitChar (n % 10) := by simpa using h2
        subst this
        exact digitChar_isDigit (n % 10)

theorem digit_clean {c : Char} (h : c.isDigit = true) : c ≠ '\t' ∧ c ≠ '\n' :=
  ⟨fun he => by subst he; exact absurd h (by decide),
   fun he => by subst he; exact absurd h (by decide)⟩

theorem getFeatures_clean (tok : String) (i : ℕ) (toks : List String) :
    ∀ f ∈ getFeatures tok i toks, cleanStr f := by
  have hnat : cleanStr (natRepr i) := by
    intro c hc
    exact digit_clean (natDigitsAux_digits (i + 1) i c (by simpa [natRepr] using hc))
  have hlg : cleanStr (lengthGroup toks.length) := by
    unfold lengthGroup
    split_ifs <;> decide
  have hcap : cleanStr (capFlag tok) := by
    unfold capFlag
    split
    · split <;> decide
    · decide
  have hpar : cleanStr (parenFlag tok) := by
    unfold parenFlag
    split <;> decide
  intro f hf
  have hfe : f = "I" ++ natRepr i ∨ f = "L" ++ lengthGroup toks.length
      ∨ f = capFlag tok ∨ f = parenFlag tok := by simpa [getFeatures] using hf
  rcases hfe with rfl | rfl | rfl | rfl
  · exact cleanStr_append (by decide) hnat
  · exact cleanStr_append (by decide) hlg
  · exact hcap
  · exact hpar

theorem bestTagLoop_mem (ts : List String) :
    bestTagLoop ts = "OTHER" ∨ bestTagLoop ts ∈ ts := by
  induction ts with
  | nil => left; rfl
  | cons t ts ih =>
    simp only [bestTagLoop]
    split
    · right; simp
    · rcases ih with h | h
      · left; exact h
      · right; exact List.mem_cons_of_mem t h

theorem bestTag_mem (ts : List String) : _bestTag ts = "OTHER" ∨ _bestTag ts ∈ ts := by
  unfold _bestTag
  split
  · next hlen =>
    cases ts with
    | nil => simp at hlen
    | cons a l => right; simp [List.headD]
  · exact bestTagLoop_mem ts

theorem matchLoop_mem {tok : String} {dt : Option ℤ} {row2 : Row} {ks : List String}
    {res : List String} (h : matchLoop tok dt row2 ks = .ok res) :
    ∀ x ∈ res, ∃ k2 ∈ ks, x = strUpper k2 := by
  induction ks generalizing res with
  | nil =>
    simp only [matchLoop] at h
    cases h
    intro x hx
    simp at hx
  | cons k0 ks ih =>
    simp only [matchLoop] at h
    cases hget : row2.get k0 with
    | none => rw [hget] at h; exact absurd h (by simp)
    | some v =>
      rw [hget] at h
      cases hrest : matchLoop tok dt row2 ks with
      | error e => rw [hrest] at h; exact absurd h (by simp [Except.map])
      | ok rest =>
        rw [hrest] at h
        have hres : res = fieldContrib tok dt k0 v ++ rest := by
          simpa [Except.map] using h.symm
        subst hres
        intro x hx
        rcases List.mem_append.mp hx with h1 | h2
        · exact ⟨k0, by simp, contrib_mem h1⟩
        · obtain ⟨k2, hk2, hx2⟩ := ih hrest x h2
          exact ⟨k2, by simp [hk2], hx2⟩

theorem rowDataE_map_fst {toks : List String} {row2 : Row}
    {rd : List (String × List String)} (h : rowDataE toks row2 = .ok rd) :
    rd.map Prod.fst = toks := by
  induction toks generalizing rd with
  | nil =>
    simp only [rowDataE] at h
    cases h
    rfl
  | cons t ts ih =>
    simp only [rowDataE] at h
    cases hmu : _matchUp t row2 with
    | error e => rw [hmu] at h; exact absurd h (by simp)
    | ok tags =>
      rw [hmu] at h
      cases hrest : rowDataE ts row2 with
      | error e => rw [hrest] at h; exact absurd h (by simp [Except.map])
      | ok rest =>
        rw [hrest] at h
        have hrd : rd = (t, tags) :: rest := by simpa [Except.map] using h.symm
        subst hrd
        simp [ih hrest]

theorem rowDataE_tags {toks : List String} {row2 : Row}
    {rd : List (String × List String)} (h : rowDataE toks row2 = .ok rd) :
    ∀ p ∈ rd, ∀ x ∈ p.2, x ∈ fieldOrder.map strUpper := by
  induction toks generalizing rd with
  | nil =>
    simp only [rowDataE] at h
    cases h
    intro p hp
    simp at hp
  | cons t ts ih =>
    simp only [rowDataE] at h
    cases hmu : _matchUp t row2 with
    | error e => rw [hmu] at h; exact absurd h (by simp)
    | ok tags =>
      rw [hmu] at h
      cases hrest : rowDataE ts row2 with
      | error e => rw [hrest] at h; exact absurd h (by simp [Except.map])
      | ok rest =>
        rw [hrest] at h
        have hrd : rd = (t, tags) :: rest := by simpa [Except.map] using h.symm
        subst hrd
        intro p hp
        rcases List.mem_cons.mp hp with rfl | hp2
        · intro x hx
          simp only [_matchUp] at hmu
          cases hdt : _parseNumbers (normalizeToken t) with
          | error e => rw [hdt] at hmu; exact absurd hmu (by simp)
          | ok dt =>
            rw [hdt] at hmu
            obtain ⟨k2, hk2, hx2⟩ := matchLoop_mem hmu x hx
            exact List.mem_map.mpr ⟨k2, hk2, hx2.symm⟩
        · exact ih hrest p hp2

theorem addPrefixesGo_tags : ∀ (rd : List (String × List String))
    (prev : Option (List String)) (q : String × List String), q ∈ addPrefixesGo prev rd →
    ∀ x ∈ q.2, ∃ t, (∃ p2 ∈ rd, t ∈ p2.2)
      ∧ (x = "B" ++ "-" ++ t ∨ x = "I" ++ "-" ++ t) := by
  intro rd
  induction rd with
  | nil => intro prev q hq; simp [addPrefixesGo] at hq
  | cons hd rest ih =>
    intro prev q hq x hx
    obtain ⟨tok, tags⟩ := hd
    simp only [addPrefixesGo] at hq
    rcases List.mem_cons.mp hq with rfl | hq2
    · obtain ⟨t, ht, rfl⟩ := List.mem_map.mp hx
      refine ⟨t, ⟨(tok, tags), by simp, ht⟩, ?_⟩
      cases prev with
      | none => left; rfl
      | some p =>
        by_cases hmem : t ∈ p
        · right
          show (if t ∈ p then "I" else "B") ++ "-" ++ t = _
          rw [if_pos hmem]
        · left
          show (if t ∈ p then "I" else "B") ++ "-" ++ t = _
          rw [if_neg hmem]
    · obtain ⟨t, ⟨p2, hp2, htp⟩, hform⟩ := ih (some tags) q hq2 x hx
      exact ⟨t, ⟨p2, by simp [hp2], htp⟩, hform⟩

theorem prefixed_clean {x t : String} (ht : t ∈ fieldOrder.map strUpper)
    (hx : x = "B" ++ "-" ++ t ∨ x = "I" ++ "-" ++ t) : cleanStr x := by
  have hct : cleanStr t := by
    obtain ⟨k2, hk2, rfl⟩ := List.mem_map.mp ht
    have hk6 : k2 = "index" ∨ k2 = "name" ∨ k2 = "qty" ∨ k2 = "range_end" ∨ k2 = "unit"
        ∨ k2 = "comment" := by simpa [fieldOrder] using hk2
    rcases hk6 with rfl | rfl | rfl | rfl | rfl | rfl <;> decide
  rcases hx with rfl | rfl
  · exact cleanStr_append (by decide) hct
  · exact cleanStr_append (by decide) hct

theorem joinLine_no_nl {parts : List String} (h : ∀ p ∈ parts, cleanStr p) :
    '\n' ∉ (joinLine parts).data := by
  show '\n' ∉ interChar '\t' (parts.map String.data)
  apply interChar_no (by decide)
  intro p hp
  obtain ⟨p0, hp0, rfl⟩ := List.mem_map.mp hp
  intro hc
  exact (h p0 hp0 '\n' hc).2 rfl

theorem string_eta (x : String) : String.mk x.data = x := by
  cases x
  rfl

theorem joinLine_splitTabs {parts : List String} (hne : parts ≠ [])
    (h : ∀ p ∈ parts, cleanStr p) : splitTabsS (joinLine parts) = parts := by
  show (splitOnCharL '\t' (interChar '\t' (parts.map String.data))).map String.mk = parts
  have hno : ∀ p ∈ parts.map String.data, '\t' ∉ p := by
    intro p hp
    obtain ⟨p0, hp0, rfl⟩ := List.mem_map.mp hp
    intro hc
    exact (h p0 hp0 '\t' hc).1 rfl
  rw [interChar_split (by simpa using hne) hno, List.map_map]
  have hid : ∀ x : String, (String.mk ∘ String.data) x = id x := fun x => string_eta x
  rw [List.map_congr_left (fun x hx => hid x), List.map_id]

theorem getLastD_map {α β : Type} (f : α → β) (l : List α) (d : α) :
    (l.map f).getLastD (f d) = f (l.getLastD d) := by
  induction l generalizing d with
  | nil => rfl
  | cons a l ih => rw [List.map_cons, List.getLastD_cons, List.getLastD_cons, ih]

theorem getD_map {α β : Type} (f : α → β) (l : List α) (i : ℕ) (d : α) :
    (l.map f).getD i (f d) = f (l.getD i d) := by
  induction l generalizing i with
  | nil => rfl
  | cons a l ih =>
    cases i with
    | zero => rfl
    | succ j => simp only [List.map_cons, List.getD_cons_succ]; exact ih j

theorem renderAll_facts (toks : List String) :
    ∀ (pd : List (String × List String)) (i0 : ℕ),
    (∀ q ∈ pd, cleanStr q.1 ∧ ∀ x ∈ q.2, cleanStr x) →
    (splitOnCharL '\n' (renderAll i0 pd toks).data).length = pd.length + 1 ∧
    (splitOnCharL '\n' (renderAll i0 pd toks).data).getLastD ['X'] = [] ∧
    ∀ j, j < pd.length →
      (splitOnCharL '\n' (renderAll i0 pd toks).data).getD j ['X']
        = (joinLine ((pd.getD j ("", [])).1
            :: (getFeatures (pd.getD j ("", [])).1 (i0 + j + 1) toks
              ++ [_bestTag (pd.getD j ("", [])).2]))).data := by
  intro pd
  induction pd with
  | nil =>
    intro i0 hclean
    refine ⟨rfl, rfl, ?_⟩
    intro j hj
    simp at hj
  | cons hd rest ih =>
    intro i0 hclean
    obtain ⟨tok, tags⟩ := hd
    have hhd := hclean (tok, tags) (by simp)
    have hparts : ∀ p ∈ tok :: (getFeatures tok (i0 + 1) toks ++ [_bestTag tags]),
        cleanStr p := by
      intro p hp
      rcases List.mem_cons.mp hp with rfl | hp2
      · exact hhd.1
      rcases List.mem_append.mp hp2 with hp3 | hp4
      · exact getFeatures_clean tok (i0 + 1) toks p hp3
      · have hpe : p = _bestTag tags := by simpa using hp4
        subst hpe
        rcases bestTag_mem tags with he | hm
        · rw [he]; decide
        · exact hhd.2 _ hm
    have hnoNL : '\n' ∉ (joinLine (tok :: (getFeatures tok (i0 + 1) toks
        ++ [_bestTag tags]))).data := joinLine_no_nl hparts
    have hdata : (renderAll i0 ((tok, tags) :: rest) toks).data
        = (joinLine (tok :: (getFeatures tok (i0 + 1) toks ++ [_bestTag tags]))).data
          ++ '\n' :: (renderAll (i0 + 1) rest toks).data := by
      show ((joinLine _ ++ "\n") ++ renderAll (i0 + 1) rest toks).data = _
      rw [String.data_append, String.data_append, List.append_assoc]
      rfl
    rw [hdata, splitOnCharL_sep _ (fun x hx heq => hnoNL (by rwa [heq] at hx))]
    obtain ⟨ih1, ih2, ih3⟩ := ih (i0 + 1) (fun q hq => hclean q (by simp [hq]))
    refine ⟨?_, ?_, ?_⟩
    · simp [ih1]
    · rw [List.getLastD_cons]
      have hne := splitOnCharL_ne_nil '\n' (renderAll (i0 + 1) rest toks).data
      rw [List.getLastD_eq_getLast?] at ih2 ⊢
      cases hgl : (splitOnCharL '\n' (renderAll (i0 + 1) rest toks).data).getLast? with
      | none =>
        exact absurd (List.getLast?_eq_none_iff.mp hgl) hne
      | some z =>
        rw [hgl] at ih2
        simpa using ih2
    · intro j hj
      cases j with
      | zero =>
        simp only [List.getD_cons_zero]
      | succ j2 =>
        simp only [List.getD_cons_succ]
        rw [ih3 j2 (by simpa using hj)]
        rw [show i0 + 1 + j2 + 1 = i0 + (j2 + 1) + 1 from by omega]

/-- C8: on success, the Row Translator's output splits on newlines into
exactly one line per display-string token (in token order) plus the empty
remainder after the final newline — so every line, the last included, is
newline-terminated and there is no record-level line — and each line's
tab-separated fields start with the raw token and end with the resolved
final tag of that token's BIO-prefixed candidates. -/
theorem claim8_line_structure (row : Row) (s out : String) (toks : List String)
    (rd : List (String × List String))
    (htoks : toks = tokenize (cleanUnicodeFractions s))
    (hin : row.input = some (FieldValue.str s))
    (hrd : rowDataE toks row.delInput = .ok rd)
    (h : (translate_row row).1 = .ok out) :
    (splitLinesS out).length = toks.length + 1 ∧
    (splitLinesS out).getLastD "X" = "" ∧
    ∀ i, i < toks.length →
      (splitTabsS ((splitLinesS out).getD i "X")).headD "X" = toks.getD i "X" ∧
      (splitTabsS ((splitLinesS out).getD i "X")).getLastD "X"
        = _bestTag (((_addPrefixes rd).getD i ("", [])).2) := by
  subst htoks
  have hget : row.get "input" = some (FieldValue.str s) := by
    rw [show row.get "input" = row.input from rfl, hin]
  simp only [translate_row, hget, hrd] at h
  have hout : out = renderAll 0 (_addPrefixes rd) (tokenize (cleanUnicodeFractions s)) := by
    simpa using h.symm
  subst hout
  set toks := tokenize (cleanUnicodeFractions s) with htk
  set pd := _addPrefixes rd with hpd
  have hfst : rd.map Prod.fst = toks := rowDataE_map_fst hrd
  have hlen_rd : rd.length = toks.length := by
    have := congrArg List.length hfst
    simpa using this
  have hpd_len : pd.length = rd.length := addPrefixesGo_length rd none
  have hpd_fst : pd.map Prod.fst = toks := by
    rw [hpd, show _addPrefixes rd = addPrefixesGo none rd from rfl,
      addPrefixesGo_map_fst rd none, hfst]
  have hclean : ∀ q ∈ pd, cleanStr q.1 ∧ ∀ x ∈ q.2, cleanStr x := by
    intro q hq
    constructor
    · have hq1 : q.1 ∈ pd.map Prod.fst := List.mem_map_of_mem _ hq
      rw [hpd_fst] at hq1
      exact tokenize_clean hq1
    · intro x hx
      obtain ⟨t, ⟨p2, hp2, htp⟩, hform⟩ := addPrefixesGo_tags rd none q hq x hx
      exact prefixed_clean (rowDataE_tags hrd p2 hp2 t htp) hform
  obtain ⟨f1, f2, f3⟩ := renderAll_facts toks pd 0 hclean
  refine ⟨?_, ?_, ?_⟩
  · show ((splitOnCharL '\n' (renderAll 0 pd toks).data).map String.mk).length = toks.length + 1
    rw [List.length_map, f1, hpd_len, hlen_rd]
  · show ((splitOnCharL '\n' (renderAll 0 pd toks).data).map String.mk).getLastD "X" = ""
    have hm := getLastD_map String.mk (splitOnCharL '\n' (renderAll 0 pd toks).data) ['X']
    rw [f2] at hm
    exact hm
  · intro i hi
    have hipd : i < pd.length := by rw [hpd_len, hlen_rd]; exact hi
    have hline := f3 i hipd
    have hmap := getD_map String.mk (splitOnCharL '\n' (renderAll 0 pd toks).data) i ['X']
    rw [hline, string_eta] at hmap
    have hmem : pd.getD i ("", []) ∈ pd := by
      rw [List.getD_eq_getElem _ _ hipd]
      exact List.getElem_mem hipd
    have hcq := hclean _ hmem
    have hclean_i : ∀ p ∈ (pd.getD i ("", [])).1
        :: (getFeatures (pd.getD i ("", [])).1 (0 + i + 1) toks
          ++ [_bestTag (pd.getD i ("", [])).2]), cleanStr p := by
      intro p hp
      rcases List.mem_cons.mp hp with rfl | hp2
      · exact hcq.1
      rcases List.mem_append.mp hp2 with hp3 | hp4
      · exact getFeatures_clean _ _ toks p hp3
      · have hpe : p = _bestTag (pd.getD i ("", [])).2 := by simpa using hp4
        subst hpe
        rcases bestTag_mem (pd.getD i ("", [])).2 with he | hm2
        · rw [he]; decide
        · exact hcq.2 _ hm2
    have hsplit : splitTabsS (((splitOnCharL '\n' (renderAll 0 pd toks).data).map
        String.mk).getD i "X")
        = (pd.getD i ("", [])).1
          :: (getFeatures (pd.getD i ("", [])).1 (0 + i + 1) toks
            ++ [_bestTag (pd.getD i ("", [])).2]) := by
      show splitTabsS (((splitOnCharL '\n' (renderAll 0 pd toks).data).map
        String.mk).getD i (String.mk ['X'])) = _
      rw [hmap]
      exact joinLine_splitTabs (by simp) hclean_i
    simp only [splitLinesS]
    rw [hsplit]
    constructor
    · show (pd.getD i ("", [])).1 = toks.getD i "X"
      rw [← hpd_fst]
      calc (pd.getD i ("", [])).1
          = Prod.fst (pd.getD i ("X", [])) := by
            rw [List.getD_eq_getElem pd ("", []) hipd, List.getD_eq_getElem pd ("X", []) hipd]
        _ = (pd.map Prod.fst).getD i "X" := (getD_map Prod.fst pd i ("X", [])).symm
    · show ((pd.getD i ("", [])).1
          :: (getFeatures (pd.getD i ("", [])).1 (0 + i + 1) toks
            ++ [_bestTag (pd.getD i ("", [])).2])).getLastD "X"
          = _bestTag ((pd.getD i ("", [])).2)
      rw [List.getLastD_eq_getLast?,
        show (pd.getD i ("", [])).1
            :: (getFeatures (pd.getD i ("", [])).1 (0 + i + 1) toks
              ++ [_bestTag (pd.getD i ("", [])).2])
          = ((pd.getD i ("", [])).1
            :: getFeatures (pd.getD i ("", [])).1 (0 + i + 1) toks)
            ++ [_bestTag (pd.getD i ("", [])).2] from by simp,
        List.getLast?_concat]
      rfl

/-- The translated output of the end-to-end record, with the modelled
feature columns. -/
def outEx : String :=
  "2\tI1\tL4\tNoCAP\tNoPAREN\tB-QTY\ncups\tI2\tL4\tNoCAP\tNoPAREN\tB-UNIT\nflour\tI3\tL4\tNoCAP\tNoPAREN\tB-NAME\n"

/-- The matcher results for the three tokens of the end-to-end record. -/
def rdEx : List (String × List String) :=
  [("2", ["QTY"]), ("cups", ["UNIT"]), ("flour", ["NAME"])]

theorem claim8_witness :
    (["2", "cups", "flour"] : List String) = tokenize (cleanUnicodeFractions "2 cups flour") ∧
    rowEx.input = some (FieldValue.str "2 cups flour") ∧
    rowDataE ["2", "cups", "flour"] rowEx.delInput = .ok rdEx ∧
    (translate_row rowEx).1 = .ok outEx ∧
    ((splitLinesS outEx).length = (["2", "cups", "flour"] : List String).length + 1 ∧
     (splitLinesS outEx).getLastD "X" = "" ∧
     ∀ i, i < (["2", "cups", "flour"] : List String).length →
       (splitTabsS ((splitLinesS outEx).getD i "X")).headD "X"
         = (["2", "cups", "flour"] : List String).getD i "X" ∧
       (splitTabsS ((splitLinesS outEx).getD i "X")).getLastD "X"
         = _bestTag (((_addPrefixes rdEx).getD i ("", [])).2)) :=
  ⟨by decide, by decide, by decide, by decide,
    claim8_line_structure rowEx "2 cups flour" outEx ["2", "cups", "flour"] rdEx
      (by decide) (by decide) (by decide) (by decide)⟩

end IngredientTagger
